import Mathlib

/-!
Verification of the recognition-and-matching pipeline of the TFT augments
helper (source files: src/core.py, src/utils.py).

The pipeline's pure computations are embedded shallowly:

* `cleanse_text`   — the text canonicalizer (utils.py, `cleanse_text`),
  modelled character-by-character over `List Char`;
* `translate_distance` — the resolution normalizer (utils.py), modelled in
  exact rational arithmetic (Python's binary floats idealised as rationals;
  Python's `int()` truncation is `int_trunc`);
* `crop_screenshot` — Python/NumPy slice semantics `img[y : y+h, x : x+w]`
  (utils.py, `crop_screenshot`), via `pySlice`;
* `find_approximate_key` — the approximate key resolver (core.py); the
  string-similarity collaborator (fuzzywuzzy's ratio) is an external library,
  so the resolver is parameterised over it, and `ratioModel` is a concrete
  instance for evaluation;
* `is_augment_round` — the phase detector (core.py), parameterised over the
  OCR collaborator (preset number to extracted text); the fixed regular
  expression r"\d+-?\d+" of the source is modelled by `firstRoundMatch`;
* `get_augment_stats` — the stats lookup scan over the three tier-slot
  tables (core.py);
* `display_stats_cycle` — one cycle of the display loop (core.py,
  `display_stats`), parameterised over the lookup results.

External collaborators (screen capture, colour conversion, Otsu
thresholding, the OCR engine, the canvas) are image- or string-valued
oracles; they are passed in as parameters so every theorem quantifies over
their behaviour wherever the source treats them as black boxes.
-/

/-! ### Character classes (Python's str.strip / regex classes, ASCII fragment) -/

/-- Whitespace characters stripped by Python's `str.strip()` and matched by
the regex class `\s` (ASCII fragment). -/
def isSpaceChar (c : Char) : Bool :=
  c = ' ' || c = '\t' || c = '\n' || c = '\r' || c = '\x0b' || c = '\x0c'

/-- Characters kept by `re.sub(r"[^\w\s()]", "", text)` in `cleanse_text`
(utils.py line 21): word characters (`\w`, ASCII fragment: alphanumeric or
underscore), whitespace, and the two parentheses. -/
def keepChar (c : Char) : Bool :=
  c.isAlphanum || c = '_' || isSpaceChar c || c = '(' || c = ')'

/-! ### cleanse_text (utils.py lines 9-26) -/

/-- First step of `cleanse_text`: `re.sub(r"[^\w\s()]", "", text)` removes
every character that is not a word character, whitespace or a parenthesis. -/
def removePunct (l : List Char) : List Char := l.filter keepChar

/-- Drop everything up to and including the first `')'` of the list (the
span consumed by `[^)]*\)` once a `\(` has matched). -/
def dropThroughClose (l : List Char) : List Char :=
  (l.dropWhile (fun c => !(c = ')'))).tail

/-- Second step of `cleanse_text`: `re.sub(r"\([^)]*\)", "", ...)`. The
Python regex engine scans left to right; at an `'('` that is followed by a
`')'` it removes the span through that first `')'` and resumes after it;
every other character is kept. -/
def removeParens (l : List Char) : List Char :=
  match l with
  | [] => []
  | c :: rest =>
    if c = '(' && (')' ∈ rest : Bool) then removeParens (dropThroughClose rest)
    else c :: removeParens rest
termination_by l.length
decreasing_by
  · simp only [dropThroughClose]
    have h1 : (rest.dropWhile (fun c => !(c = ')'))).length ≤ rest.length :=
      (List.dropWhile_sublist _).length_le
    have h2 : (rest.dropWhile (fun c => !(c = ')'))).tail.length ≤
        (rest.dropWhile (fun c => !(c = ')'))).length := (List.tail_sublist _).length_le
    simp only [List.length_cons]
    omega
  · simp

/-- Python's `str.lstrip()` over a character list. -/
def trimLeft (l : List Char) : List Char := l.dropWhile isSpaceChar

/-- Python's `str.rstrip()` over a character list. -/
def trimRight (l : List Char) : List Char := (l.reverse.dropWhile isSpaceChar).reverse

/-- Python's `str.strip()` over a character list. -/
def pyStrip (l : List Char) : List Char := trimRight (trimLeft l)

/-- Python's `.replace("\n", "")` over a character list. -/
def removeNewlines (l : List Char) : List Char := l.filter (fun c => !(c = '\n'))

/-- The canonicalizer `cleanse_text` of utils.py over a character list:
remove punctuation (keeping parentheses), remove every parenthesized span,
strip leading/trailing whitespace and remove every newline. -/
def cleanseList (l : List Char) : List Char :=
  removeNewlines (pyStrip (removeParens (removePunct l)))

/-- `cleanse_text` (utils.py lines 9-26) on strings. -/
def cleanse_text (s : String) : String := String.mk (cleanseList s.data)

/-- The shape left by the parenthesis-removal pass: some split of the list
has no opening parenthesis before the split point and no closing parenthesis
after it, so the regex `\([^)]*\)` can no longer match anywhere. -/
def NoPair (l : List Char) : Prop :=
  ∃ a b, l = a ++ b ∧ '(' ∉ a ∧ ')' ∉ b

/-- A list is strip-stable: Python's `.strip()` leaves it unchanged. -/
def Stripped (l : List Char) : Prop := trimLeft l = l ∧ trimRight l = l

/-! ### Resolution normalizer (utils.py lines 145-169) -/

/-- Python's `int()` on a rational: truncation toward zero. -/
def int_trunc (q : ℚ) : ℤ := if q < 0 then ⌈q⌉ else ⌊q⌋

/-- `translate_distance` (utils.py lines 145-169): scale a reference-resolution
distance to the live resolution by the smaller of the two axis ratios, then
truncate with `int()`. Python's binary floating point is idealised as exact
rational arithmetic. -/
def translate_distance (old_distance : ℚ) (new_resolution : ℕ × ℕ) : ℤ :=
  let old_width : ℚ := 2560
  let old_height : ℚ := 1440
  let width_scale : ℚ := new_resolution.1 / old_width
  let height_scale : ℚ := new_resolution.2 / old_height
  let scale_factor := min width_scale height_scale
  int_trunc (old_distance * scale_factor)

/-! ### Region capture (utils.py lines 88-102, core.py lines 18-49) -/

/-- Python/NumPy slice `l[start : stop]` (step 1): negative endpoints count
from the end, endpoints are clamped to the list's bounds, and an empty range
yields the empty list — never an error. -/
def pySlice {α : Type} (l : List α) (start stop : ℤ) : List α :=
  let n : ℤ := l.length
  let s := if start < 0 then max (n + start) 0 else min start n
  let e := if stop < 0 then max (n + stop) 0 else min stop n
  (l.take e.toNat).drop s.toNat

/-- `crop_screenshot` (utils.py lines 88-102): `img[y : y + h, x : x + w]` on a
row-major pixel grid — rows `y` to `y + h`, then columns `x` to `x + w` of each
kept row. -/
def crop_screenshot {α : Type} (img : List (List α)) (x y h w : ℤ) :
    List (List α) :=
  (pySlice img y (y + h)).map (fun row => pySlice row x (x + w))

/-- The crop performed by `live_image_process` (core.py lines 18-49): the
rectangle tuple is unpacked positionally as `(x, y, h, w)` and handed to
`crop_screenshot`. The screenshot, the grayscale conversion and the
Otsu thresholding are external collaborators that do not change the grid's
shape, so the screen content is a parameter and the two pixel-wise
conversions are omitted. -/
def live_image_process_crop {α : Type} (screen : List (List α))
    (rectangle : ℤ × ℤ × ℤ × ℤ) : List (List α) :=
  crop_screenshot screen rectangle.1 rectangle.2.1 rectangle.2.2.1 rectangle.2.2.2

/-! ### Approximate key resolver (core.py lines 52-78) -/

/-- Python's `str.lower()` on one character (ASCII fragment). -/
def lowerChar (c : Char) : Char :=
  if 'A' ≤ c && c ≤ 'Z' then Char.ofNat (c.toNat + 32) else c

/-- Python's `str.lower()` (ASCII fragment), as the source applies it to
queries and keys before comparison (core.py lines 71-73). -/
def pyLower (s : String) : String := String.mk (s.data.map lowerChar)

/-- One statistics record of a reference table: the scraper stores the three
fields as strings (utils.py lines 76-79). -/
structure AugmentStats where
  pick_rate : String
  avg_place : String
  win_rate : String
deriving DecidableEq

/-- The loop of `find_approximate_key` (core.py lines 72-76): scan the keys
in order, remembering the first key whose similarity score strictly exceeds
every score seen before it. `ratio` is the external string-similarity
collaborator (fuzzywuzzy's ratio). -/
def find_approximate_key_go (ratio : String → String → ℕ) (search_term : String) :
    Option String → ℕ → List (String × AugmentStats) → Option String × ℕ
  | best, best_score, [] => (best, best_score)
  | best, best_score, (key, _) :: rest =>
    let score := ratio (pyLower key) search_term
    if best_score < score then find_approximate_key_go ratio search_term (some key) score rest
    else find_approximate_key_go ratio search_term best best_score rest

/-- `find_approximate_key` (core.py lines 52-78): lower-case the search term,
then scan the dictionary keys with `find_approximate_key_go` starting from
`(None, 0)`. -/
def find_approximate_key (ratio : String → String → ℕ)
    (dictionary : List (String × AugmentStats)) (search_term : String) :
    Option String × ℕ :=
  find_approximate_key_go ratio (pyLower search_term) none 0 dictionary

/-- Length of a longest common subsequence, on fuel: every step consumes one
unit and shortens the combined input by at least one element, so the combined
length is always enough fuel. The fuel keeps the recursion structural. -/
def lcsAux : ℕ → List Char → List Char → ℕ
  | 0, _, _ => 0
  | _, [], _ => 0
  | _, _ :: _, [] => 0
  | fuel + 1, a :: as, b :: bs =>
    if a = b then lcsAux fuel as bs + 1
    else max (lcsAux fuel (a :: as) bs) (lcsAux fuel as (b :: bs))

/-- Length of a longest common subsequence of two character lists. -/
def lcsLen (l1 l2 : List Char) : ℕ := lcsAux (l1.length + l2.length) l1 l2

/-- Modelled from the spec: the string-similarity collaborator (spec section 6,
fuzzywuzzy's ratio — an external library, not part of this repository), "a
normalized edit-distance-based ratio (0 = totally dissimilar, 100 =
identical)": twice the longest-common-subsequence length over the total
length, scaled to 0..100; identical strings score 100 and strings with no
common character score 0. -/
def ratioModel (a b : String) : ℕ :=
  if a.data.length + b.data.length = 0 then 100
  else 200 * lcsLen a.data b.data / (a.data.length + b.data.length)

/-- Largest element of a list of naturals (0 for the empty list). -/
def listMax (l : List ℕ) : ℕ := l.foldr max 0

/-- First key of the table whose similarity score against the (already
lower-cased) search term equals `m`. -/
def firstKeyAttaining (ratio : String → String → ℕ) (search_term : String)
    (m : ℕ) : List (String × AugmentStats) → Option String
  | [] => none
  | (key, _) :: rest =>
    if ratio (pyLower key) search_term = m then some key
    else firstKeyAttaining ratio search_term m rest

/-- The similarity scores of the table's keys against the lower-cased query,
in table order. -/
def tableScores (ratio : String → String → ℕ) (query : String)
    (d : List (String × AugmentStats)) : List ℕ :=
  d.map (fun p => ratio (pyLower p.1) (pyLower query))

/-- The resolver the spec describes, written from its words: the key with the
highest score wins, the first-seen key is kept on ties, and `(none, 0)` is
returned when no key scores above the initial best of 0. -/
def best_match_spec (ratio : String → String → ℕ)
    (d : List (String × AugmentStats)) (query : String) : Option String × ℕ :=
  let m := listMax (tableScores ratio query d)
  if m = 0 then (none, 0) else (firstKeyAttaining ratio (pyLower query) m d, m)

/-- The resolver claim C1 and C5 describe, written from the claims' words: on
a non-empty table some key is always returned — the first key attaining the
highest score, even when that score is 0. -/
def best_match_claim (ratio : String → String → ℕ)
    (d : List (String × AugmentStats)) (query : String) : Option String × ℕ :=
  match d with
  | [] => (none, 0)
  | _ :: _ =>
    (firstKeyAttaining ratio (pyLower query) (listMax (tableScores ratio query d)) d,
      listMax (tableScores ratio query d))

/-! ### Phase detector (core.py lines 81-127) -/

/-- Attempt to match the regex `\d+-?\d+` at the head of the list, with
Python's greedy-with-backtracking semantics for this pattern: a maximal digit
run, then — if a dash immediately followed by a digit comes next — the dash
and the following maximal digit run; a lone digit run only matches when it is
at least two digits long. -/
def matchRoundAt (l : List Char) : Option (List Char) :=
  let d1 := l.takeWhile Char.isDigit
  if d1.isEmpty then none
  else
    match l.dropWhile Char.isDigit with
    | '-' :: rest2 =>
      let d2 := rest2.takeWhile Char.isDigit
      if d2.isEmpty then (if 2 ≤ d1.length then some d1 else none)
      else some (d1 ++ '-' :: d2)
    | _ => if 2 ≤ d1.length then some d1 else none

/-- The first match `re.findall(r"\d+-?\d+", text)[0]` delivers: the match at
the leftmost position where the pattern matches, scanning left to right. -/
def firstRoundMatch : List Char → Option (List Char)
  | [] => none
  | c :: rest =>
    match matchRoundAt (c :: rest) with
    | some m => some m
    | none => firstRoundMatch rest

/-- The `.strip().replace("\n", "")` applied to each OCR extraction
(core.py lines 107-111). -/
def ocrStrip (s : String) : String := String.mk (removeNewlines (pyStrip s.data))

/-- `matches[0]` of the round pattern as a string, `none` when the pattern
does not occur in the text (core.py lines 112-117). -/
def roundNumberOf (text : String) : Option String :=
  (firstRoundMatch text.data).map String.mk

/-- The allow-list of augment-round labels, hyphenated and concatenated
(core.py line 119). -/
def augmentRoundTokens : List String := ["2-1", "3-2", "4-2", "21", "32", "42"]

/-- The page-segmentation presets tried in order: `range(13, 5, -1)`
(core.py line 106). -/
def psmPresets : List ℕ := [13, 12, 11, 10, 9, 8, 7, 6]

/-- Whether preset `i` is a hit: its extracted text's first numeric token is
in the allow-list (core.py lines 107-119). `ocr` is the external OCR
collaborator, preset number to extracted text. -/
def augmentHit (ocr : ℕ → String) (i : ℕ) : Bool :=
  match roundNumberOf (ocrStrip (ocr i)) with
  | some r => r ∈ augmentRoundTokens
  | none => false

/-- The preset loop of `is_augment_round` (core.py lines 106-121): consult
the presets in order and break out at the first allow-list hit. Besides the
flag, the number of OCR calls made is returned, so that the short-circuit is
observable. -/
def is_augment_round_go (ocr : ℕ → String) : List ℕ → Bool × ℕ
  | [] => (false, 0)
  | i :: rest =>
    if augmentHit ocr i then (true, 1)
    else
      let r := is_augment_round_go ocr rest
      (r.1, r.2 + 1)

/-- `is_augment_round` (core.py lines 81-127), parameterised over the OCR
collaborator: true exactly when the loop breaks on an allow-list hit. -/
def is_augment_round (ocr : ℕ → String) : Bool :=
  (is_augment_round_go ocr psmPresets).1

/-- How many OCR presets the detector consults before stopping. -/
def is_augment_round_tries (ocr : ℕ → String) : ℕ :=
  (is_augment_round_go ocr psmPresets).2

/-- The detector claim C2 describes, written from its words: stop at the
FIRST preset whose extracted text contains a substring matching the round
pattern, and report whether that preset's token is in the allow-list. -/
def is_augment_round_claim (ocr : ℕ → String) : List ℕ → Bool
  | [] => false
  | i :: rest =>
    match roundNumberOf (ocrStrip (ocr i)) with
    | some r => r ∈ augmentRoundTokens
    | none => is_augment_round_claim ocr rest

/-! ### Stats lookup (core.py lines 130-188) -/

/-- The slot loop of `get_augment_stats` (core.py lines 167-182), threading
the running `(key_to_keep, stats, best_score)` state through the tier-slot
tables in order: an exact (case-sensitive) containment hit accepts the text
with score 100 and breaks; otherwise the approximate resolver's result is
adopted when its score strictly exceeds the best seen. The source initialises
`stats` to an empty dict and only ever reads it after a key is adopted, so
the record is carried as an `Option` that `d.lookup` fills. -/
def get_augment_stats_go (ratio : String → String → ℕ) (text : String) :
    Option String → Option AugmentStats → ℕ → List (List (String × AugmentStats)) →
    Option String × Option AugmentStats × ℕ
  | key_to_keep, stats, best_score, [] => (key_to_keep, stats, best_score)
  | key_to_keep, stats, best_score, d :: rest =>
    if (List.lookup text d).isSome then (some text, List.lookup text d, 100)
    else
      let ks := find_approximate_key ratio d text
      if best_score < ks.2 then
        get_augment_stats_go ratio text ks.1 (ks.1.bind (fun k => List.lookup k d))
          ks.2 rest
      else get_augment_stats_go ratio text key_to_keep stats best_score rest

/-- The scan of `get_augment_stats` over the tier-slot tables, started from
`(None, {}, 0)` (core.py lines 167-182). -/
def get_augment_stats_scan (ratio : String → String → ℕ)
    (tables : List (List (String × AugmentStats))) (text : String) :
    Option String × Option AugmentStats × ℕ :=
  get_augment_stats_go ratio text none none 0 tables

/-- `get_augment_stats` (core.py lines 130-188) after the capture and OCR
collaborators have produced the raw text: canonicalise it with `cleanse_text`
and scan the rank's tier-slot tables; the matched key and its statistics are
returned. -/
def get_augment_stats (ratio : String → String → ℕ)
    (tables : List (List (String × AugmentStats))) (ocr_text : String) :
    Option String × Option AugmentStats :=
  let r := get_augment_stats_scan ratio tables (cleanse_text ocr_text)
  (r.1, r.2.1)

/-- The capture rectangle `get_augment_stats` builds (core.py lines 152-157):
`(x - x_padding, y - y_padding, width, height)` with the four translated
distances 300, 30, 70 and 600. -/
def get_augment_stats_rectangle (x y : ℤ) (res : ℕ × ℕ) : ℤ × ℤ × ℤ × ℤ :=
  let x_padding := translate_distance 300 res
  let y_padding := translate_distance 30 res
  let width := translate_distance 70 res
  let height := translate_distance 600 res
  (x - x_padding, y - y_padding, width, height)

/-- The pixels `get_augment_stats` actually captures: its rectangle handed to
`live_image_process`, which unpacks it positionally as `(x, y, h, w)`
(core.py lines 40-46 and 152-159). -/
def get_augment_stats_crop {α : Type} (screen : List (List α)) (x y : ℤ)
    (res : ℕ × ℕ) : List (List α) :=
  live_image_process_crop screen (get_augment_stats_rectangle x y res)

/-- The capture claim C3 describes, written from its words (spec section 4.6
steps 1-2): anchored at `(x - t300, y - t30)`, of width `t70` and height
`t600` under the crop semantics `img[y : y+height, x : x+width]` — so `t600`
in the row slot and `t70` in the column slot. -/
def get_augment_stats_crop_claim {α : Type} (screen : List (List α)) (x y : ℤ)
    (res : ℕ × ℕ) : List (List α) :=
  crop_screenshot screen (x - translate_distance 300 res)
    (y - translate_distance 30 res) (translate_distance 600 res)
    (translate_distance 70 res)

/-- The reference-table invariant of spec section 3: keys are
case-insensitively unique. -/
abbrev caseInsensUnique (d : List (String × AugmentStats)) : Prop :=
  d.Pairwise (fun p q => (pyLower p.1) ≠ (pyLower q.1))

/-! ### Display loop (core.py lines 191-249) -/

/-- One cycle of `display_stats` (core.py lines 214-242) after the phase
check: `is_aug` is the phase detector's verdict and `lookupFn` the
collaborator view of `get_augment_stats` at each horizontal position. The
cycle returns the collected `(augment_name, stats, x_position)` buffer, the
draw commands issued (each the position paired with the statistics record
whose three fields the source formats into the drawn text), and the
reschedule delay in milliseconds. -/
def display_stats_cycle (is_aug : Bool)
    (lookupFn : ℤ → Option String × Option AugmentStats) (x_positions : List ℤ) :
    List (Option String × Option AugmentStats × ℤ) ×
      List (ℤ × Option AugmentStats) × ℕ :=
  let stats_buffer :=
    if is_aug then
      x_positions.map (fun x => ((lookupFn x).1, (lookupFn x).2, x))
    else []
  let timer : ℕ := if is_aug then 3000 else 5000
  let rendered :=
    if stats_buffer.any (fun t => t.1.isNone) then []
    else stats_buffer.map (fun t => (t.2.2, t.2.1))
  (stats_buffer, rendered, timer)

/-- Sample statistics records for concrete scenarios. -/
def statsA : AugmentStats := ⟨"8%", "4.1", "15%"⟩

/-- Sample statistics record (slot 2). -/
def statsB : AugmentStats := ⟨"12%", "3.9", "17%"⟩

/-- Sample statistics record (slot 3). -/
def statsC : AugmentStats := ⟨"5%", "4.5", "11%"⟩


/-! ### Structural lemmas about the canonicalizer stages -/

theorem dropThroughClose_sublist (l : List Char) : (dropThroughClose l).Sublist l :=
  (List.tail_sublist _).trans (List.dropWhile_sublist _)

theorem removeParens_sublist (l : List Char) : (removeParens l).Sublist l := by
  match l with
  | [] => simp [removeParens]
  | c :: rest =>
    rw [removeParens]
    split
    · exact ((removeParens_sublist (dropThroughClose rest)).trans
        (dropThroughClose_sublist rest)).trans (List.sublist_cons_self c rest)
    · exact (removeParens_sublist rest).cons₂ c
termination_by l.length
decreasing_by
  all_goals
    have := (dropThroughClose_sublist rest).length_le
    simp only [List.length_cons]
    omega

theorem NoPair.sublist {l m : List Char} (hs : l.Sublist m) (hm : NoPair m) :
    NoPair l := by
  obtain ⟨a, b, rfl, ha, hb⟩ := hm
  obtain ⟨a2, b2, rfl, hsa, hsb⟩ := List.sublist_append_iff.mp hs
  exact ⟨a2, b2, rfl, fun h => ha (hsa.mem h), fun h => hb (hsb.mem h)⟩

theorem noPair_removeParens (l : List Char) : NoPair (removeParens l) := by
  match l with
  | [] =>
    simp only [removeParens]
    exact ⟨[], [], by simp, by simp, by simp⟩
  | c :: rest =>
    rw [removeParens]
    split
    · exact noPair_removeParens (dropThroughClose rest)
    · next hcond =>
      obtain ⟨a, b, hab, ha, hb⟩ := noPair_removeParens rest
      by_cases hc : c = '('
      · subst hc
        have hmem : ')' ∉ rest := by
          intro hmem
          exact hcond (by simp [hmem])
        refine ⟨[], '(' :: (a ++ b), by simp [hab], by simp, ?_⟩
        intro hcl
        rcases List.mem_cons.mp hcl with h | h
        · exact absurd h.symm (by decide)
        · rw [← hab] at h
          exact hmem ((removeParens_sublist rest).mem h)
      · exact ⟨c :: a, b, by simp [hab], by
          intro h
          rcases List.mem_cons.mp h with h | h
          · exact hc h.symm
          · exact ha h, hb⟩
termination_by l.length
decreasing_by
  all_goals
    have := (dropThroughClose_sublist rest).length_le
    simp only [List.length_cons]
    omega

theorem removeParens_eq_self {l : List Char} (h : NoPair l) : removeParens l = l := by
  obtain ⟨a, b, rfl, ha, hb⟩ := h
  induction a with
  | nil =>
    simp only [List.nil_append]
    induction b with
    | nil => simp [removeParens]
    | cons c rest ih =>
      have hrest : ')' ∉ rest := fun h => hb (List.mem_cons_of_mem c h)
      rw [removeParens, if_neg (by simp [hrest]),
        ih hrest]
  | cons c a2 ih =>
    have hc : ¬(c = '(') := fun h => ha (by simp [h])
    have ha2 : '(' ∉ a2 := fun h => ha (List.mem_cons_of_mem c h)
    rw [List.cons_append, removeParens, if_neg (by simp [hc]), ih ha2]

theorem trimRight_sublist (l : List Char) : (trimRight l).Sublist l := by
  have h := (List.dropWhile_sublist (l := l.reverse) (p := isSpaceChar)).reverse
  rwa [List.reverse_reverse] at h

theorem pyStrip_sublist (l : List Char) : (pyStrip l).Sublist l :=
  (trimRight_sublist _).trans (List.dropWhile_sublist _)

theorem cleanseList_sublist_removeParens (l : List Char) :
    (cleanseList l).Sublist (removeParens (removePunct l)) :=
  (List.filter_sublist _).trans (pyStrip_sublist _)

theorem cleanseList_sublist_removePunct (l : List Char) :
    (cleanseList l).Sublist (removePunct l) :=
  (cleanseList_sublist_removeParens l).trans (removeParens_sublist _)

theorem trimLeft_eq_self_of_head {l : List Char}
    (h : ∀ c, l.head? = some c → isSpaceChar c = false) : trimLeft l = l := by
  cases l with
  | nil => rfl
  | cons c rest =>
    simp only [trimLeft, List.dropWhile_cons, h c rfl]
    simp

theorem head_of_trimLeft_eq_self {l : List Char} (h : trimLeft l = l) :
    ∀ c, l.head? = some c → isSpaceChar c = false := by
  intro c hc
  cases l with
  | nil => simp at hc
  | cons d rest =>
    simp only [List.head?_cons, Option.some.injEq] at hc
    cases h2 : isSpaceChar c
    · rfl
    · exfalso
      rw [trimLeft, List.dropWhile_cons, hc, if_pos h2] at h
      have hlen := congrArg List.length h
      have hle := (List.dropWhile_sublist (l := rest) (p := isSpaceChar)).length_le
      simp only [List.length_cons] at hlen
      omega

theorem trimLeft_idem (l : List Char) : trimLeft (trimLeft l) = trimLeft l :=
  List.dropWhile_idempotent _ _

theorem trimRight_idem (l : List Char) : trimRight (trimRight l) = trimRight l := by
  simp only [trimRight, List.reverse_reverse]
  rw [List.dropWhile_idempotent]

theorem trimRight_cons (c : Char) (l : List Char) :
    trimRight (c :: l) =
      if trimRight l = [] then (if isSpaceChar c then [] else [c])
      else c :: trimRight l := by
  simp only [trimRight, List.reverse_cons, List.dropWhile_append]
  by_cases h : l.reverse.dropWhile isSpaceChar = []
  · rw [if_pos (by simp [h]), if_pos (by simp [h]), List.dropWhile_cons]
    cases hsp : isSpaceChar c <;> simp [hsp, List.dropWhile_nil]
  · rw [if_neg (by simp [h]), if_neg (by simp [h])]
    simp

theorem trimLeft_trimRight_comm (l : List Char) :
    trimLeft (trimRight l) = trimRight (trimLeft l) := by
  induction l with
  | nil => rfl
  | cons c rest ih =>
    rw [trimRight_cons]
    by_cases hsp : isSpaceChar c = true
    · have hleft : trimLeft (c :: rest) = trimLeft rest := by
        simp [trimLeft, List.dropWhile_cons, hsp]
      by_cases hnil : trimRight rest = []
      · rw [if_pos hnil, if_pos hsp, hleft, ← ih, hnil]
      · rw [if_neg hnil, hleft, ← ih]
        simp only [trimLeft, List.dropWhile_cons, hsp, if_pos]
    · have hspf : isSpaceChar c = false := by
        cases h2 : isSpaceChar c
        · rfl
        · exact absurd h2 hsp
      have hleft : trimLeft (c :: rest) = c :: rest := by
        simp [trimLeft, List.dropWhile_cons, hspf]
      by_cases hnil : trimRight rest = []
      · rw [if_pos hnil, if_neg (by simp [hspf]), hleft, trimRight_cons, if_pos hnil,
          if_neg (by simp [hspf])]
        simp [trimLeft, List.dropWhile_cons, hspf]
      · rw [if_neg hnil, hleft, trimRight_cons, if_neg hnil]
        simp [trimLeft, List.dropWhile_cons, hspf]

theorem stripped_pyStrip (l : List Char) : Stripped (pyStrip l) := by
  constructor
  · show trimLeft (trimRight (trimLeft l)) = trimRight (trimLeft l)
    rw [trimLeft_trimRight_comm, trimLeft_idem]
  · show trimRight (trimRight (trimLeft l)) = trimRight (trimLeft l)
    rw [trimRight_idem]

theorem trimRight_eq_self_iff {l : List Char} :
    trimRight l = l ↔ trimLeft l.reverse = l.reverse := by
  constructor
  · intro h
    have h2 := congrArg List.reverse h
    rw [trimRight, List.reverse_reverse] at h2
    exact h2
  · intro h
    show (l.reverse.dropWhile isSpaceChar).reverse = l
    rw [show l.reverse.dropWhile isSpaceChar = trimLeft l.reverse from rfl, h,
      List.reverse_reverse]

theorem trimLeft_removeNewlines {l : List Char} (h : trimLeft l = l) :
    trimLeft (removeNewlines l) = removeNewlines l := by
  cases l with
  | nil => rfl
  | cons c rest =>
    have hc : isSpaceChar c = false := head_of_trimLeft_eq_self h c rfl
    have hcn : (decide (c = '\n')) = false := by
      by_cases h2 : c = '\n'
      · subst h2
        simp [isSpaceChar] at hc
      · simp [h2]
    simp only [removeNewlines]
    rw [List.filter_cons_of_pos (by simp [hcn])]
    apply trimLeft_eq_self_of_head
    intro d hd
    simp only [List.head?_cons, Option.some.injEq] at hd
    rw [← hd]
    exact hc

theorem removeNewlines_reverse (l : List Char) :
    (removeNewlines l).reverse = removeNewlines l.reverse := by
  simp [removeNewlines, List.filter_reverse]

theorem stripped_removeNewlines {l : List Char} (h : Stripped l) :
    Stripped (removeNewlines l) := by
  obtain ⟨h1, h2⟩ := h
  refine ⟨trimLeft_removeNewlines h1, ?_⟩
  rw [trimRight_eq_self_iff] at h2 ⊢
  rw [removeNewlines_reverse]
  exact trimLeft_removeNewlines h2

theorem pyStrip_eq_self {l : List Char} (h : Stripped l) : pyStrip l = l := by
  obtain ⟨h1, h2⟩ := h
  show trimRight (trimLeft l) = l
  rw [h1, h2]

/-! ### Idempotence of the canonicalizer -/

theorem removePunct_cleanseList (l : List Char) :
    removePunct (cleanseList l) = cleanseList l :=
  List.filter_eq_self.mpr fun _ hc =>
    (List.mem_filter.mp ((cleanseList_sublist_removePunct l).mem hc)).2

theorem removeParens_cleanseList (l : List Char) :
    removeParens (cleanseList l) = cleanseList l :=
  removeParens_eq_self
    (NoPair.sublist (cleanseList_sublist_removeParens l)
      (noPair_removeParens (removePunct l)))

theorem pyStrip_cleanseList (l : List Char) :
    pyStrip (cleanseList l) = cleanseList l :=
  pyStrip_eq_self (stripped_removeNewlines (stripped_pyStrip _))

theorem removeNewlines_cleanseList (l : List Char) :
    removeNewlines (cleanseList l) = cleanseList l :=
  List.filter_eq_self.mpr fun _ hc => (List.mem_filter.mp hc).2

theorem cleanseList_idem (l : List Char) :
    cleanseList (cleanseList l) = cleanseList l := by
  show removeNewlines (pyStrip (removeParens (removePunct (cleanseList l)))) =
    cleanseList l
  rw [removePunct_cleanseList, removeParens_cleanseList, pyStrip_cleanseList,
    removeNewlines_cleanseList]

/-! ### Characterisation of the approximate key resolver -/

theorem listMax_cons (a : ℕ) (l : List ℕ) : listMax (a :: l) = max a (listMax l) :=
  rfl

theorem le_listMax {l : List ℕ} {x : ℕ} (h : x ∈ l) : x ≤ listMax l := by
  induction l with
  | nil => simp at h
  | cons a rest ih =>
    rw [listMax_cons]
    rcases List.mem_cons.mp h with rfl | h2
    · exact le_max_left _ _
    · exact (ih h2).trans (le_max_right _ _)

theorem find_approximate_key_go_eq (ratio : String → String → ℕ) (st : String) :
    ∀ (l : List (String × AugmentStats)) (bm : Option String) (bs : ℕ),
    find_approximate_key_go ratio st bm bs l =
      if listMax (l.map (fun p => ratio (pyLower p.1) st)) ≤ bs then (bm, bs)
      else
        (firstKeyAttaining ratio st (listMax (l.map (fun p => ratio (pyLower p.1) st))) l,
          listMax (l.map (fun p => ratio (pyLower p.1) st))) := by
  intro l
  induction l with
  | nil =>
    intro bm bs
    simp [find_approximate_key_go, listMax]
  | cons p rest ih =>
    intro bm bs
    obtain ⟨key, v⟩ := p
    rw [find_approximate_key_go]
    simp only [List.map_cons, listMax_cons]
    by_cases hbs : bs < ratio (pyLower key) st
    · rw [if_pos hbs, ih]
      by_cases hM : listMax (rest.map (fun p => ratio (pyLower p.1) st)) ≤
          ratio (pyLower key) st
      · rw [if_pos hM, if_neg (by omega),
          Nat.max_eq_left hM, firstKeyAttaining, if_pos rfl]
      · push_neg at hM
        rw [if_neg (by omega), if_neg (by omega),
          Nat.max_eq_right hM.le, firstKeyAttaining, if_neg (by omega)]
    · push_neg at hbs
      rw [if_neg (by omega), ih]
      by_cases hM : listMax (rest.map (fun p => ratio (pyLower p.1) st)) ≤ bs
      · rw [if_pos hM, if_pos (by simp [Nat.max_le]; omega)]
      · push_neg at hM
        rw [if_neg (by omega), if_neg (by rw [Nat.max_le]; omega),
          Nat.max_eq_right (by omega), firstKeyAttaining, if_neg (by omega)]

theorem find_approximate_key_eq_spec (ratio : String → String → ℕ)
    (d : List (String × AugmentStats)) (q : String) :
    find_approximate_key ratio d q = best_match_spec ratio d q := by
  rw [find_approximate_key, find_approximate_key_go_eq]
  simp only [best_match_spec, tableScores]
  by_cases h : listMax (d.map (fun p => ratio (pyLower p.1) (pyLower q))) = 0
  · rw [if_pos (by omega), if_pos h]
  · rw [if_neg (by omega), if_neg h]

theorem firstKeyAttaining_isSome (ratio : String → String → ℕ) (st : String) :
    ∀ (l : List (String × AugmentStats)),
    listMax (l.map (fun p => ratio (pyLower p.1) st)) ≠ 0 →
    (firstKeyAttaining ratio st (listMax (l.map (fun p => ratio (pyLower p.1) st)))
      l).isSome = true := by
  intro l
  induction l with
  | nil => simp [listMax]
  | cons p rest ih =>
    intro h
    obtain ⟨key, v⟩ := p
    simp only [List.map_cons, listMax_cons] at h ⊢
    rcases max_choice (ratio (pyLower key) st)
      (listMax (rest.map (fun p => ratio (pyLower p.1) st))) with hm | hm
    · rw [hm, firstKeyAttaining, if_pos rfl]
      rfl
    · rw [hm, firstKeyAttaining]
      by_cases hk : ratio (pyLower key) st =
          listMax (rest.map (fun p => ratio (pyLower p.1) st))
      · rw [if_pos hk]
        rfl
      · rw [if_neg hk]
        rw [hm] at h
        exact ih h

theorem listMax_eq_zero {l : List ℕ} (h : ∀ x ∈ l, x = 0) : listMax l = 0 := by
  induction l with
  | nil => rfl
  | cons a rest ih =>
    rw [listMax_cons, h a (List.mem_cons_self a rest),
      ih (fun x hx => h x (List.mem_cons_of_mem a hx))]
    simp

/-- C1 (counterexample): the non-empty single-key table for "abc" queried
with the totally unrelated "xyz": every key scores 0 against the query, and
`find_approximate_key` returns `(none, 0)` — no key at all — while the claim
promises the very first key of a non-empty table. -/
theorem find_approximate_key_none_on_nonempty_table :
    find_approximate_key ratioModel [("abc", ⟨"", "", ""⟩)] "xyz" = (none, 0) ∧
    best_match_claim ratioModel [("abc", ⟨"", "", ""⟩)] "xyz" = (some "abc", 0) ∧
    ([("abc", (⟨"", "", ""⟩ : AugmentStats))] : List (String × AugmentStats)) ≠ [] :=
  ⟨by decide, by decide, by decide⟩

/-- C1 (amended): `find_approximate_key` returns some key on a non-empty
table exactly when some key scores above 0: its key component is `none` if
and only if every key of the table scores 0 against the query — a non-empty
table whose keys all score 0 yields `none`, not the table's first key. -/
theorem find_approximate_key_none_iff_all_zero (ratio : String → String → ℕ)
    (d : List (String × AugmentStats)) (q : String) :
    (find_approximate_key ratio d q).1 = none ↔
      ∀ p ∈ d, ratio (pyLower p.1) (pyLower q) = 0 := by
  rw [find_approximate_key_eq_spec]
  simp only [best_match_spec, tableScores]
  by_cases h : listMax (d.map (fun p => ratio (pyLower p.1) (pyLower q))) = 0
  · rw [if_pos h]
    constructor
    · intro _ p hp
      have hle : ratio (pyLower p.1) (pyLower q) ≤
          listMax (d.map (fun p => ratio (pyLower p.1) (pyLower q))) :=
        le_listMax (List.mem_map_of_mem (fun p => ratio (pyLower p.1) (pyLower q)) hp)
      omega
    · intro _
      rfl
  · rw [if_neg h]
    constructor
    · intro hnone
      exfalso
      have hs := firstKeyAttaining_isSome ratio (pyLower q) d h
      simp only at hnone
      rw [hnone] at hs
      simp at hs
    · intro hall
      exact absurd
        (listMax_eq_zero (fun x hx => by
          obtain ⟨p, hp, rfl⟩ := List.mem_map.mp hx
          exact hall p hp)) h

/-- C5 (counterexample): on the non-empty table for "ab" with the unrelated
query "cd" the single key — hence the first-seen key of highest score — is
"ab" at score 0, yet `find_approximate_key` returns `(none, 0)` rather than
that key: the claim's description fails when the highest score is 0. -/
theorem find_approximate_key_zero_tie_counterexample :
    find_approximate_key ratioModel [("ab", ⟨"", "", ""⟩)] "cd" = (none, 0) ∧
    best_match_claim ratioModel [("ab", ⟨"", "", ""⟩)] "cd" = (some "ab", 0) :=
  ⟨by decide, by decide⟩

/-- C5 (amended): `find_approximate_key` computes exactly `best_match_spec`:
with both sides lower-cased, the first key attaining the strictly highest
score is returned together with that score whenever that score is positive,
and `(none, 0)` is returned when every key scores 0 — in particular on the
empty table. -/
theorem find_approximate_key_eq_best_match (ratio : String → String → ℕ)
    (d : List (String × AugmentStats)) (q : String) :
    find_approximate_key ratio d q = best_match_spec ratio d q :=
  find_approximate_key_eq_spec ratio d q

/-- C7: the canonicalizer is idempotent — cleansing an already cleansed
string changes nothing: `cleanse_text (cleanse_text s) = cleanse_text s` for
every string `s`. -/
theorem cleanse_text_idempotent (s : String) :
    cleanse_text (cleanse_text s) = cleanse_text s :=
  congrArg String.mk (cleanseList_idem s.data)

/-! ### Characterisation of the phase detector -/

theorem is_augment_round_go_spec (ocr : ℕ → String) :
    ∀ presets : List ℕ,
    is_augment_round_go ocr presets =
      (presets.any (augmentHit ocr),
        (presets.takeWhile (fun i => !(augmentHit ocr i))).length +
          (if presets.any (augmentHit ocr) then 1 else 0)) := by
  intro presets
  induction presets with
  | nil => simp [is_augment_round_go]
  | cons i rest ih =>
    rw [is_augment_round_go]
    by_cases h : augmentHit ocr i
    · simp [h, List.any_cons, List.takeWhile_cons]
    · have hf : augmentHit ocr i = false := by
        cases h2 : augmentHit ocr i
        · rfl
        · exact absurd h2 h
      rw [if_neg h, ih]
      simp only [List.any_cons, hf, Bool.false_or, List.takeWhile_cons,
        Bool.not_false, if_true, List.length_cons, Prod.mk.injEq]
      refine ⟨trivial, ?_⟩
      by_cases h2 : rest.any (augmentHit ocr) = true <;> simp [h2]

/-- C2 (counterexample): an OCR collaborator whose preset-13 text is
"Round 1-4" — a pattern match whose token is outside the allow-list — and
whose every other preset's text is "Round 2-1". The source continues past
preset 13 and returns true after consulting a second preset, while the
claim's stop-at-the-first-pattern-match rule stops at preset 13 and returns
false. -/
theorem is_augment_round_continues_past_pattern :
    is_augment_round (fun i => if i = 13 then "Round 1-4" else "Round 2-1") = true ∧
    is_augment_round_claim (fun i => if i = 13 then "Round 1-4" else "Round 2-1")
      psmPresets = false ∧
    is_augment_round_tries (fun i => if i = 13 then "Round 1-4" else "Round 2-1") = 2 :=
  ⟨by decide, by decide, by decide⟩

/-- C2 (amended): the phase detector scans the presets 13 down to 6 and
short-circuits exactly at the first preset whose extracted first numeric
token lies in the fixed allow-list: it returns true precisely when some
preset's token is in the allow-list, and the number of OCR calls it makes is
the number of non-hit presets before the first hit plus one (all eight when
no preset hits) — a preset whose text merely matches the digits pattern with
a token outside the allow-list does not stop the scan. -/
theorem is_augment_round_allowlist_short_circuit (ocr : ℕ → String) :
    is_augment_round ocr = psmPresets.any (augmentHit ocr) ∧
    is_augment_round_tries ocr =
      (psmPresets.takeWhile (fun i => !(augmentHit ocr i))).length +
        (if psmPresets.any (augmentHit ocr) then 1 else 0) := by
  constructor
  · rw [is_augment_round, is_augment_round_go_spec]
  · rw [is_augment_round_tries, is_augment_round_go_spec]

/-! ### Resolution normalizer lemmas -/

theorem int_trunc_of_nonneg {q : ℚ} (h : 0 ≤ q) : int_trunc q = ⌊q⌋ := by
  rw [int_trunc, if_neg (not_lt.mpr h)]

/-- C8: for a fixed non-negative reference distance, `translate_distance` is
non-decreasing in the live width and in the live height, and equals the floor
of the distance scaled by the smaller axis ratio
min(live_width / 2560, live_height / 1440). -/
theorem translate_distance_monotone_floor (d : ℚ) (hd : 0 ≤ d)
    (w h w2 h2 : ℕ) (hw : w ≤ w2) (hh : h ≤ h2) :
    translate_distance d (w, h) ≤ translate_distance d (w2, h2) ∧
    translate_distance d (w, h) = ⌊d * min ((w : ℚ) / 2560) ((h : ℚ) / 1440)⌋ := by
  have hmin : ∀ (a b : ℕ), (0:ℚ) ≤ min ((a : ℚ) / 2560) ((b : ℚ) / 1440) :=
    fun a b => le_min (by positivity) (by positivity)
  have hval : ∀ (a b : ℕ), translate_distance d (a, b) =
      ⌊d * min ((a : ℚ) / 2560) ((b : ℚ) / 1440)⌋ := by
    intro a b
    simp only [translate_distance]
    exact int_trunc_of_nonneg (mul_nonneg hd (hmin a b))
  refine ⟨?_, hval w h⟩
  rw [hval w h, hval w2 h2]
  apply Int.floor_le_floor
  apply mul_le_mul_of_nonneg_left _ hd
  apply min_le_min
  · exact (div_le_div_iff_of_pos_right (by norm_num)).mpr (by exact_mod_cast hw)
  · exact (div_le_div_iff_of_pos_right (by norm_num)).mpr (by exact_mod_cast hh)

/-- Witness for C8: the reference distance 70 scaled from a 1920 by 1080
screen to a 2560 by 1440 screen, with every hypothesis discharged at these
concrete values. -/
theorem translate_distance_monotone_floor_witness :
    translate_distance 70 (1920, 1080) ≤ translate_distance 70 (2560, 1440) ∧
    translate_distance 70 (1920, 1080) =
      ⌊(70 : ℚ) * min ((1920 : ℚ) / 2560) ((1080 : ℚ) / 1440)⌋ :=
  translate_distance_monotone_floor 70 (by norm_num) 1920 1080 2560 1440
    (by norm_num) (by norm_num)

/-! ### Region capture lemmas -/

theorem pySlice_natCast {α : Type} (l : List α) (a k : ℕ) :
    pySlice l (a : ℤ) ((a : ℤ) + (k : ℤ)) = (l.drop a).take k := by
  simp only [pySlice]
  rw [if_neg (by omega), if_neg (by omega)]
  have hs : (min (a : ℤ) (l.length : ℤ)).toNat = min a l.length := by omega
  have he : (min ((a : ℤ) + (k : ℤ)) (l.length : ℤ)).toNat = min (a + k) l.length := by
    omega
  rw [hs, he]
  by_cases ha : a ≤ l.length
  · rw [min_eq_left ha]
    have htake : l.take (min (a + k) l.length) = l.take (a + k) := by
      by_cases h2 : a + k ≤ l.length
      · rw [min_eq_left h2]
      · rw [min_eq_right (by omega), List.take_length,
          List.take_of_length_le (by omega)]
    rw [htake, List.drop_take]
    congr 1
    omega
  · rw [min_eq_right (by omega), min_eq_right (by omega)]
    rw [List.take_length, List.drop_eq_nil_of_le (le_refl _),
      List.drop_eq_nil_of_le (by omega), List.take_nil]

theorem crop_screenshot_eq_truncate {α : Type} (img : List (List α))
    (x y h w : ℤ) (hx : 0 ≤ x) (hy : 0 ≤ y) (hh : 0 ≤ h) (hw : 0 ≤ w) :
    crop_screenshot img x y h w =
      ((img.drop y.toNat).take h.toNat).map
        (fun row => (row.drop x.toNat).take w.toNat) := by
  rw [show x = ((x.toNat : ℕ) : ℤ) from (Int.toNat_of_nonneg hx).symm,
    show y = ((y.toNat : ℕ) : ℤ) from (Int.toNat_of_nonneg hy).symm,
    show h = ((h.toNat : ℕ) : ℤ) from (Int.toNat_of_nonneg hh).symm,
    show w = ((w.toNat : ℕ) : ℤ) from (Int.toNat_of_nonneg hw).symm]
  rw [crop_screenshot]
  simp only [pySlice_natCast, Int.toNat_natCast]

/-- C9: `crop_screenshot` is total over arbitrary rectangles and truncates at
the image bounds: for every image and every rectangle (any position, any
extents, in particular extending past the screen edge), the crop returns
exactly the available rows `y` up to `y + h` and within them the available
columns `x` up to `x + w` — the `take`/`drop` truncation — and never fails. -/
theorem crop_screenshot_truncates {α : Type} (img : List (List α))
    (x y h w : ℕ) :
    crop_screenshot img (x : ℤ) (y : ℤ) (h : ℤ) (w : ℤ) =
      ((img.drop y).take h).map (fun row => (row.drop x).take w) := by
  rw [crop_screenshot]
  simp only [pySlice_natCast]

/-! ### The stats-lookup capture rectangle -/

theorem translate_300_ref : translate_distance 300 (2560, 1440) = 300 := by
  simp only [translate_distance, int_trunc]
  norm_num

theorem translate_30_ref : translate_distance 30 (2560, 1440) = 30 := by
  simp only [translate_distance, int_trunc]
  norm_num

theorem translate_70_ref : translate_distance 70 (2560, 1440) = 70 := by
  simp only [translate_distance, int_trunc]
  norm_num

theorem translate_600_ref : translate_distance 600 (2560, 1440) = 600 := by
  simp only [translate_distance, int_trunc]
  norm_num

/-- C3 (amended): the Stats Lookup capture region is anchored at
`(x - t(300), y - t(30))` for every position and resolution, but under the
crop semantics `img[y : y+height, x : x+width]` its height (row extent) is
`t(70)` and its width (column extent) is `t(600)`: the source's local names
`width = t(70)` and `height = t(600)` land in `live_image_process`'s `h` and
`w` slots respectively, so the two extents are swapped relative to their
names. -/
theorem get_augment_stats_crop_region {α : Type} (screen : List (List α))
    (x y : ℤ) (res : ℕ × ℕ) :
    get_augment_stats_crop screen x y res =
      crop_screenshot screen (x - translate_distance 300 res)
        (y - translate_distance 30 res) (translate_distance 70 res)
        (translate_distance 600 res) := rfl

/-- C3 (counterexample): at the reference resolution, anchored so the crop
starts at the screen origin, on a 100-row, 700-column screen: the code's
capture keeps 70 rows of 600 columns each, while the claim's
width = t(70), height = t(600) reading would keep 100 rows (600 requested,
truncated to the 100 available) of 70 columns each. -/
theorem get_augment_stats_crop_dims_counterexample :
    (get_augment_stats_crop (List.replicate 100 (List.replicate 700 (0 : ℕ)))
        300 30 (2560, 1440)).map List.length = List.replicate 70 600 ∧
    (get_augment_stats_crop_claim (List.replicate 100 (List.replicate 700 (0 : ℕ)))
        300 30 (2560, 1440)).map List.length = List.replicate 100 70 := by
  constructor
  · show (crop_screenshot _ (300 - translate_distance 300 (2560, 1440))
        (30 - translate_distance 30 (2560, 1440)) (translate_distance 70 (2560, 1440))
        (translate_distance 600 (2560, 1440))).map List.length = _
    rw [translate_300_ref, translate_30_ref, translate_70_ref, translate_600_ref]
    norm_num
    rw [crop_screenshot_eq_truncate _ 0 0 70 600 (by norm_num) (by norm_num)
      (by norm_num) (by norm_num)]
    simp only [Int.toNat_ofNat, Int.toNat_zero, List.drop_zero, List.take_replicate,
      List.map_replicate, List.length_replicate]
    norm_num
    omega
  · show (crop_screenshot _ (300 - translate_distance 300 (2560, 1440))
        (30 - translate_distance 30 (2560, 1440)) (translate_distance 600 (2560, 1440))
        (translate_distance 70 (2560, 1440))).map List.length = _
    rw [translate_300_ref, translate_30_ref, translate_70_ref, translate_600_ref]
    norm_num
    rw [crop_screenshot_eq_truncate _ 0 0 600 70 (by norm_num) (by norm_num)
      (by norm_num) (by norm_num)]
    simp only [Int.toNat_ofNat, Int.toNat_zero, List.drop_zero, List.take_replicate,
      List.map_replicate, List.length_replicate]
    norm_num
    omega

/-! ### Exact-key short circuit of the stats lookup -/

theorem get_augment_stats_go_exact (ratio : String → String → ℕ) (text : String)
    (v : AugmentStats) :
    ∀ (pre : List (List (String × AugmentStats)))
      (post : List (List (String × AugmentStats)))
      (k0 : Option String) (s0 : Option AugmentStats) (b0 : ℕ)
      (d : List (String × AugmentStats)),
    List.lookup text d = some v →
    (∀ d2 ∈ pre, List.lookup text d2 = none) →
    get_augment_stats_go ratio text k0 s0 b0 (pre ++ d :: post) =
      (some text, some v, 100) := by
  intro pre
  induction pre with
  | nil =>
    intro post k0 s0 b0 d hd hpre
    rw [List.nil_append, get_augment_stats_go, if_pos (by rw [hd]; rfl), hd]
  | cons d2 pre2 ih =>
    intro post k0 s0 b0 d hd hpre
    rw [List.cons_append, get_augment_stats_go,
      if_neg (by rw [hpre d2 (List.mem_cons_self _ _)]; simp)]
    dsimp only
    split
    · exact ih post _ _ _ d hd (fun d3 h3 => hpre d3 (List.mem_cons_of_mem _ h3))
    · exact ih post _ _ _ d hd (fun d3 h3 => hpre d3 (List.mem_cons_of_mem _ h3))

/-- C4: whenever the canonicalized OCR text is literally a key of a tier-slot
table (and of no earlier slot, which the scan reaches first), the scan accepts
exactly that key with score 100 and that slot's statistics record, and the
slots after it are never consulted — the result is the same for every
continuation `post2` — so an exact key beats any approximate match in the
other slots regardless of their scores. -/
theorem get_augment_stats_exact_short_circuit (ratio : String → String → ℕ)
    (raw : String) (v : AugmentStats)
    (pre post : List (List (String × AugmentStats)))
    (d : List (String × AugmentStats))
    (hd : List.lookup (cleanse_text raw) d = some v)
    (hpre : ∀ d2 ∈ pre, List.lookup (cleanse_text raw) d2 = none) :
    (∀ post2, get_augment_stats_scan ratio (pre ++ d :: post2) (cleanse_text raw) =
      (some (cleanse_text raw), some v, 100)) ∧
    get_augment_stats ratio (pre ++ d :: post) raw =
      (some (cleanse_text raw), some v) := by
  constructor
  · intro post2
    exact get_augment_stats_go_exact ratio (cleanse_text raw) v pre post2
      none none 0 d hd hpre
  · rw [get_augment_stats]
    rw [show get_augment_stats_scan ratio (pre ++ d :: post) (cleanse_text raw) =
        (some (cleanse_text raw), some v, 100) from
      get_augment_stats_go_exact ratio (cleanse_text raw) v pre post
        none none 0 d hd hpre]

/-- Witness for C4, the spec's three-slot fan-out scenario: slot 1 holds key
"A", slot 2 holds key "B", slot 3 holds key "C", and the canonicalized query
is "B": the scan returns ("B", slot 2's record, 100) whatever follows slot 2,
and the full lookup returns ("B", slot 2's record). -/
theorem get_augment_stats_exact_short_circuit_witness :
    (∀ post2, get_augment_stats_scan ratioModel
        ([[("A", statsA)]] ++ [("B", statsB)] :: post2) (cleanse_text "B") =
      (some (cleanse_text "B"), some statsB, 100)) ∧
    get_augment_stats ratioModel
        ([[("A", statsA)]] ++ [("B", statsB)] :: [[("C", statsC)]]) "B" =
      (some (cleanse_text "B"), some statsB) := by
  apply get_augment_stats_exact_short_circuit ratioModel "B" statsB
    [[("A", statsA)]] [[("C", statsC)]] [("B", statsB)]
  · have hB : cleanse_text "B" = "B" := by
      simp [cleanse_text, cleanseList, removePunct, keepChar, removeParens,
        pyStrip, trimLeft, trimRight, removeNewlines, isSpaceChar]
    rw [hB]
    rfl
  · intro d2 h2
    have hB : cleanse_text "B" = "B" := by
      simp [cleanse_text, cleanseList, removePunct, keepChar, removeParens,
        pyStrip, trimLeft, trimRight, removeNewlines, isSpaceChar]
    rcases List.mem_cons.mp h2 with rfl | h3
    · rw [hB]
      rfl
    · simp at h3

/-! ### Case sensitivity of the exact containment check -/

theorem lookup_some_fst {a : String} {b : AugmentStats} :
    ∀ {l : List (String × AugmentStats)}, List.lookup a l = some b →
      ∃ q ∈ l, q.1 = a := by
  intro l
  induction l with
  | nil => intro h; simp [List.lookup] at h
  | cons p rest ih =>
    intro h
    by_cases hp : p.1 = a
    · exact ⟨p, List.mem_cons_self _ _, hp⟩
    · rw [List.lookup, show (a == p.1) = false from
        beq_eq_false_iff_ne.mpr (fun he => hp he.symm)] at h
      exact
        have ⟨q, hq, hq1⟩ := ih h
        ⟨q, List.mem_cons_of_mem _ hq, hq1⟩

theorem lookup_none_of_no_fst {a : String} :
    ∀ {l : List (String × AugmentStats)}, (∀ q ∈ l, q.1 ≠ a) →
      List.lookup a l = none := by
  intro l
  induction l with
  | nil => intro _; rfl
  | cons p rest ih =>
    intro h
    rw [List.lookup, show (a == p.1) = false from
      beq_eq_false_iff_ne.mpr (fun he => h p (List.mem_cons_self _ _) he.symm)]
    exact ih (fun q hq => h q (List.mem_cons_of_mem _ hq))

theorem lookup_none_of_case_variant {text K : String} {v : AugmentStats}
    {d : List (String × AugmentStats)} (hK : List.lookup K d = some v)
    (hne : K ≠ text) (hlow : pyLower K = pyLower text)
    (huniq : caseInsensUnique d) : List.lookup text d = none := by
  apply lookup_none_of_no_fst
  intro q hq hq1
  obtain ⟨p, hp, hp1⟩ := lookup_some_fst hK
  have hpq : p ≠ q := by
    intro he
    rw [he, hq1] at hp1
    exact hne hp1.symm
  have hsym : Symmetric (fun p q : String × AugmentStats =>
      pyLower p.1 ≠ pyLower q.1) := fun p1 q1 h => Ne.symm h
  have huniq2 : d.Pairwise (fun p q => pyLower p.1 ≠ pyLower q.1) := huniq
  have hr := List.Pairwise.forall hsym huniq2 hp hq hpq
  rw [hp1, hq1] at hr
  exact hr hlow

/-- C10: the exact containment check of the stats lookup is case-sensitive
while the approximate resolver lower-cases both sides: for a slot table with
case-insensitively unique keys that contains a key K, and a canonicalized
query equal to K except in letter case, the query is not literally a key of
the slot, so the score-100 exact branch is not taken — the slot step reduces
to the fuzzy branch driven by `find_approximate_key`, which compares the
lower-cased query against each lower-cased key. -/
theorem exact_check_case_sensitive_falls_through (ratio : String → String → ℕ)
    (text K : String) (v : AugmentStats) (d : List (String × AugmentStats))
    (post : List (List (String × AugmentStats)))
    (k0 : Option String) (s0 : Option AugmentStats) (b0 : ℕ)
    (hK : List.lookup K d = some v) (hne : K ≠ text)
    (hlow : pyLower K = pyLower text) (huniq : caseInsensUnique d) :
    List.lookup text d = none ∧
    get_augment_stats_go ratio text k0 s0 b0 (d :: post) =
      (let ks := find_approximate_key ratio d text;
        if b0 < ks.2 then
          get_augment_stats_go ratio text ks.1 (ks.1.bind (fun k => List.lookup k d))
            ks.2 post
        else get_augment_stats_go ratio text k0 s0 b0 post) ∧
    find_approximate_key ratio d text =
      find_approximate_key_go ratio (pyLower text) none 0 d := by
  have hnone := lookup_none_of_case_variant hK hne hlow huniq
  refine ⟨hnone, ?_, rfl⟩
  rw [get_augment_stats_go, if_neg (by rw [hnone]; simp)]

/-- Witness for C10: the slot table holds the key "Abc" and the canonicalized
query is its case variant "abc": the exact check misses and the slot step is
the fuzzy branch, with every hypothesis discharged at these concrete
values. -/
theorem exact_check_case_sensitive_falls_through_witness :
    List.lookup "abc" [("Abc", statsB)] = none ∧
    get_augment_stats_go ratioModel "abc" none none 0 ([("Abc", statsB)] :: []) =
      (let ks := find_approximate_key ratioModel [("Abc", statsB)] "abc";
        if 0 < ks.2 then
          get_augment_stats_go ratioModel "abc" ks.1
            (ks.1.bind (fun k => List.lookup k [("Abc", statsB)])) ks.2 []
        else get_augment_stats_go ratioModel "abc" none none 0 []) ∧
    find_approximate_key ratioModel [("Abc", statsB)] "abc" =
      find_approximate_key_go ratioModel (pyLower "abc") none 0 [("Abc", statsB)] :=
  exact_check_case_sensitive_falls_through ratioModel "abc" "Abc" statsB
    [("Abc", statsB)] [] none none 0 (by decide) (by decide) (by decide) (by decide)

/-! ### Partial-read suppression in the display loop -/

/-- C6: in every display cycle, one `none` key among the collected triples
suppresses the whole frame: if any collected `(augment_name, stats,
x_position)` triple has a `none` key, the cycle issues no draw command at
all — text is drawn only when every collected triple's key is non-null. -/
theorem display_stats_partial_none_suppresses (is_aug : Bool)
    (lookupFn : ℤ → Option String × Option AugmentStats) (xs : List ℤ)
    (h : ∃ t ∈ (display_stats_cycle is_aug lookupFn xs).1, t.1 = none) :
    (display_stats_cycle is_aug lookupFn xs).2.1 = [] := by
  obtain ⟨t, ht, ht1⟩ := h
  simp only [display_stats_cycle] at ht ⊢
  rw [if_pos]
  exact List.any_eq_true.mpr ⟨t, ht, by rw [ht1]; rfl⟩

/-- Witness for C6, the spec's scenario: three positions of which the first
two resolve to a key and the third to `none` — the cycle renders nothing. -/
theorem display_stats_partial_none_suppresses_witness :
    (∃ t ∈ (display_stats_cycle true
        (fun x => if x = 2 then (none, none) else (some "k", some statsA))
        [0, 1, 2]).1, t.1 = none) ∧
    (display_stats_cycle true
        (fun x => if x = 2 then (none, none) else (some "k", some statsA))
        [0, 1, 2]).2.1 = [] :=
  ⟨by decide,
    display_stats_partial_none_suppresses true
      (fun x => if x = 2 then (none, none) else (some "k", some statsA))
      [0, 1, 2] (by decide)⟩

/-- The spec's worked canonicalization example: punctuation and the
parenthesized span are removed and the result is trimmed. -/
theorem cleanse_text_example :
    cleanse_text "Jeweled Lotus (Legend)!!" = "Jeweled Lotus" := by
  simp [cleanse_text, cleanseList, removePunct, keepChar, removeParens,
    dropThroughClose, pyStrip, trimLeft, trimRight, removeNewlines, isSpaceChar]
